import Mathlib

/-!
Verification of the arXiv LaTeX extraction pipeline
(`pipeline/src/arxiv_digest/extract_latex.py` and
`pipeline/src/arxiv_digest/download.py`).

Python strings are modelled as `List Char`; every scanning regex of the
source is modelled as a structurally recursive scan over the character
list, so that all definitions evaluate by `decide`/`rfl`.  Character
classes (`\s`, `\w`) are modelled over their ASCII meaning, which is the
range exercised by the source's patterns.
-/

namespace ArxivDigest

/-- ASCII model of the regex class `\s` and of the whitespace set used by
`str.strip`. -/
def isSpaceChar (c : Char) : Bool :=
  c = ' ' || c = '\t' || c = '\n' || c = '\r' || c.toNat = 11 || c.toNat = 12

/-- ASCII model of the regex class `\w` (letters, digits, underscore). -/
def isWordChar (c : Char) : Bool :=
  c.isAlpha || c.isDigit || c = '_'

/-- First element of a list, with default (model of a bounded lookahead
such as a regex lookahead at a possibly-ended text). -/
def headOr : List Char → Char → Char
  | [], d => d
  | c :: _, _ => c

/-- `str.strip()`: remove leading and trailing whitespace. -/
def stripWS (l : List Char) : List Char :=
  ((l.dropWhile isSpaceChar).reverse.dropWhile isSpaceChar).reverse

/-- Case-sensitive "the pattern is a literal prefix of the text". -/
def isPrefixL : List Char → List Char → Bool
  | [], _ => true
  | _ :: _, [] => false
  | p :: ps, c :: cs => p = c && isPrefixL ps cs

/-- Case-insensitive prefix test, the model of a literal pattern compiled
with `re.IGNORECASE`. -/
def isPrefixCI : List Char → List Char → Bool
  | [], _ => true
  | _ :: _, [] => false
  | p :: ps, c :: cs => p.toLower = c.toLower && isPrefixCI ps cs

/-- Python's `pat in s` substring test. -/
def containsSub (pat : List Char) : List Char → Bool
  | [] => isPrefixL pat []
  | c :: rest => isPrefixL pat (c :: rest) || containsSub pat rest

/-- Python's `s.find(pat)`: index of the first occurrence of `pat`,
`none` when absent. -/
def findSub (pat : List Char) : List Char → Option Nat
  | [] => if isPrefixL pat [] then some 0 else none
  | c :: rest =>
    if isPrefixL pat (c :: rest) then some 0
    else (findSub pat rest).map (· + 1)

theorem isPrefixL_append (p r : List Char) : isPrefixL p (p ++ r) = true := by
  induction p with
  | nil => rfl
  | cons c cs ih => simp [isPrefixL, ih]

theorem isPrefixCI_append (p r : List Char) : isPrefixCI p (p ++ r) = true := by
  induction p with
  | nil => rfl
  | cons c cs ih => simp [isPrefixCI, ih]

theorem containsSub_of_cons (pat : List Char) (c : Char) (rest : List Char)
    (h : containsSub pat rest = true) : containsSub pat (c :: rest) = true := by
  simp [containsSub, h]

theorem containsSub_of_append_left (pat l m : List Char)
    (h : containsSub pat m = true) : containsSub pat (l ++ m) = true := by
  induction l with
  | nil => simpa using h
  | cons c cs ih => exact containsSub_of_cons _ _ _ ih

/-- A non-empty infix occurs as a substring. -/
theorem containsSub_of_infix (pat s : List Char) (hne : pat ≠ [])
    (h : pat <:+: s) : containsSub pat s = true := by
  obtain ⟨l, r, rfl⟩ := h
  rw [List.append_assoc]
  apply containsSub_of_append_left
  cases pat with
  | nil => exact absurd rfl hne
  | cons p ps =>
    have hp : isPrefixL (p :: ps) (p :: (ps ++ r)) = true := isPrefixL_append (p :: ps) r
    show (isPrefixL (p :: ps) (p :: (ps ++ r)) || containsSub (p :: ps) (ps ++ r)) = true
    rw [hp, Bool.true_or]

theorem findSub_none_iff (pat s : List Char) :
    findSub pat s = none ↔ containsSub pat s = false := by
  induction s with
  | nil =>
    simp only [findSub, containsSub]
    by_cases h : isPrefixL pat [] <;> simp [h]
  | cons c rest ih =>
    simp only [findSub, containsSub]
    by_cases h : isPrefixL pat (c :: rest) <;> simp [h, Option.map_eq_none', ih]

/-!
## CommentStripper (`LaTeXParser.strip_comments`)

Python source: `re.sub(r"(?<!\\)%.*", "", content)` — delete from every
`%` not preceded by a backslash up to (excluding) the end of its line.
Modelled as a linear scan carrying the previous character (for the
negative lookbehind) and an in-comment flag (for `.*`, which stops before
the next newline).
-/

/-- One pass of the comment-stripping scan.  `inComment = true` means we
are inside a `%`-comment and skip characters up to the next newline. -/
def scAux : Bool → Char → List Char → List Char
  | _, _, [] => []
  | true, prev, c :: rest =>
    if c = '\n' then c :: scAux false c rest else scAux true prev rest
  | false, prev, c :: rest =>
    if c = '%' && prev != '\\' then scAux true prev rest
    else c :: scAux false c rest

/-- `LaTeXParser.strip_comments`.  The initial previous character is a
space: at the start of the string the lookbehind `(?<!\\)` succeeds. -/
def strip_comments (content : List Char) : List Char :=
  scAux false ' ' content

/-- "Scanning `l` after previous character `prev` finds no unescaped
comment marker": the fixed-point condition of the stripper. -/
def noUnesc : Char → List Char → Prop
  | _, [] => True
  | prev, c :: rest => ¬(c = '%' ∧ prev ≠ '\\') ∧ noUnesc c rest

theorem scAux_noUnesc (l : List Char) :
    (∀ prev, noUnesc prev (scAux false prev l)) ∧
    (∀ prev q, noUnesc q (scAux true prev l)) := by
  induction l with
  | nil => exact ⟨fun _ => trivial, fun _ _ => trivial⟩
  | cons c rest ih =>
    refine ⟨fun prev => ?_, fun prev q => ?_⟩
    · cases hb : (c = '%' && prev != '\\') with
      | true =>
        simp only [scAux, hb, if_true]
        exact ih.2 prev prev
      | false =>
        have hnot : ¬(c = '%' ∧ prev ≠ '\\') := by
          intro hc
          have : (c = '%' && prev != '\\') = true := by
            simp [hc.1, bne_iff_ne, hc.2]
          rw [hb] at this
          exact Bool.false_ne_true this
        simp only [scAux, hb]
        simp only [Bool.false_eq_true, if_false]
        exact ⟨hnot, ih.1 c⟩
    · by_cases h : c = '\n'
      · simp only [scAux, if_pos h]
        refine ⟨?_, ih.1 c⟩
        intro hc
        rw [h] at hc
        exact absurd hc.1 (by decide)
      · simp only [scAux, if_neg h]
        exact ih.2 prev q

theorem scAux_id_of_noUnesc (l : List Char) :
    ∀ prev, noUnesc prev l → scAux false prev l = l := by
  induction l with
  | nil => intro prev _; rfl
  | cons c rest ih =>
    intro prev h
    obtain ⟨h1, h2⟩ := h
    have hb : (c = '%' && prev != '\\') = false := by
      rcases not_and_or.mp h1 with hx | hx
      · simp [hx]
      · have : prev = '\\' := not_ne_iff.mp hx
        simp [this]
    simp only [scAux, hb]
    simp only [Bool.false_eq_true, if_false]
    rw [ih c h2]

/-!
## BalancedBraceExtractor (`LaTeXParser.extract_braced_content`)

Python source (extract_latex.py, lines 112-135): starting from
`start_pos` (which must hold `{`), scan forward keeping a depth counter;
an unescaped `{` increments, an unescaped `}` decrements and, when the
depth reaches 0, the span strictly between the braces is returned;
otherwise the empty string.  A brace is "escaped" when the previous
character of the whole text is a backslash (`i == 0 or content[i-1] != "\\"`).

The scan is modelled structurally: `prev` carries the previous character
of the text, `acc` accumulates (reversed) the characters after the
opening brace — returning `acc.reverse` equals `content[start_pos+1 : i]`.
-/

def ebcGo (prev : Char) (depth : Int) (acc : List Char) : List Char → List Char
  | [] => []
  | c :: rest =>
    if c = '{' && prev != '\\' then ebcGo c (depth + 1) (c :: acc) rest
    else if c = '}' && prev != '\\' then
      if depth - 1 = 0 then acc.reverse
      else ebcGo c (depth - 1) (c :: acc) rest
    else ebcGo c depth (c :: acc) rest

/-- Entry check of `extract_braced_content`: the character at `start_pos`
must be an opening brace; it is processed first (depth becomes 1 when it
is unescaped, stays 0 when escaped). -/
def ebcEntry (prev0 : Char) (l : List Char) : List Char :=
  match l with
  | [] => []
  | c :: rest =>
    if c = '{' then
      if prev0 = '\\' then ebcGo '{' 0 [] rest else ebcGo '{' 1 [] rest
    else []

/-- `LaTeXParser.extract_braced_content`. -/
def extract_braced_content (content : List Char) (start_pos : Nat) : List Char :=
  ebcEntry (if start_pos = 0 then ' ' else content.getD (start_pos - 1) ' ')
    (content.drop start_pos)

/-- Properly nested brace strings (the Dyck grammar over `{`/`}` with
arbitrary non-brace letters). -/
inductive Balanced : List Char → Prop
  | nil : Balanced []
  | chr (c : Char) (hc : c ≠ '{' ∧ c ≠ '}') : Balanced [c]
  | wrap (a : List Char) (h : Balanced a) : Balanced ('{' :: a ++ ['}'])
  | app (a b : List Char) (ha : Balanced a) (hb : Balanced b) : Balanced (a ++ b)

/-- No brace in the list is preceded by a backslash (the previous
character of the first element being `prev`): all braces are unescaped. -/
def noEscBrace : Char → List Char → Bool
  | _, [] => true
  | prev, c :: rest =>
    (!(c = '{' || c = '}') || prev != '\\') && noEscBrace c rest

/-- Last element of a list, with default: model of `content[i-1]` lookups
at the end of a known chunk. -/
def lastD : List Char → Char → Char
  | [], d => d
  | c :: cs, _ => lastD cs c

theorem lastD_app (a b : List Char) (p : Char) :
    lastD (a ++ b) p = lastD b (lastD a p) := by
  induction a generalizing p with
  | nil => rfl
  | cons c cs ih => exact ih c

theorem lastD_concat (l : List Char) (x p : Char) :
    lastD (l ++ [x]) p = x := by
  rw [lastD_app]
  rfl

theorem getD_last_of_append (pre t : List Char) (d : Char) (h : pre ≠ []) :
    (pre ++ t).getD (pre.length - 1) d = lastD pre d := by
  have hlt : pre.length - 1 < pre.length := by
    cases pre with
    | nil => exact absurd rfl h
    | cons c cs => simp
  rw [List.getD_append _ _ _ _ hlt]
  clear h hlt
  induction pre generalizing d with
  | nil => rfl
  | cons c cs ih =>
    cases cs with
    | nil => rfl
    | cons e es =>
      have h1 : (c :: e :: es).length - 1 = (e :: es).length - 1 + 1 := by
        simp
      rw [h1]
      show (e :: es).getD ((e :: es).length - 1) d = _
      rw [ih d]
      rfl

theorem noEsc_tail (p c : Char) (l : List Char)
    (h : noEscBrace p (c :: l) = true) : noEscBrace c l = true := by
  simp only [noEscBrace, Bool.and_eq_true] at h
  exact h.2

theorem noEsc_head (p c : Char) (l : List Char) (hc : c = '{' ∨ c = '}')
    (h : noEscBrace p (c :: l) = true) : p ≠ '\\' := by
  simp only [noEscBrace, Bool.and_eq_true, Bool.or_eq_true, Bool.not_eq_true',
    bne_iff_ne] at h
  rcases h.1 with h1 | h1
  · exfalso
    rcases hc with hc | hc <;> simp [hc] at h1
  · exact h1

theorem noEsc_append_left (p : Char) (a b : List Char)
    (h : noEscBrace p (a ++ b) = true) : noEscBrace p a = true := by
  induction a generalizing p with
  | nil => rfl
  | cons c cs ih =>
    simp only [List.cons_append, noEscBrace, Bool.and_eq_true] at h ⊢
    exact ⟨h.1, ih c h.2⟩

theorem noEsc_append_right (p : Char) (a b : List Char)
    (h : noEscBrace p (a ++ b) = true) : noEscBrace (lastD a p) b = true := by
  induction a generalizing p with
  | nil => exact h
  | cons c cs ih =>
    exact ih c (noEsc_tail p c (cs ++ b) h)

theorem ebcGo_open (p : Char) (hp : p ≠ '\\') (d : Int) (acc rest : List Char) :
    ebcGo p d acc ('{' :: rest) = ebcGo '{' (d + 1) ('{' :: acc) rest := by
  simp [ebcGo, hp]

theorem ebcGo_close_ret (p : Char) (hp : p ≠ '\\') (d : Int) (acc rest : List Char)
    (hd : d - 1 = 0) : ebcGo p d acc ('}' :: rest) = acc.reverse := by
  simp [ebcGo, hp, hd]

theorem ebcGo_close_go (p : Char) (hp : p ≠ '\\') (d : Int) (acc rest : List Char)
    (hd : d - 1 ≠ 0) :
    ebcGo p d acc ('}' :: rest) = ebcGo '}' (d - 1) ('}' :: acc) rest := by
  simp [ebcGo, hp, hd]

theorem ebcGo_other (p c : Char) (hc1 : c ≠ '{') (hc2 : c ≠ '}')
    (d : Int) (acc rest : List Char) :
    ebcGo p d acc (c :: rest) = ebcGo c d (c :: acc) rest := by
  simp [ebcGo, hc1, hc2]

theorem ebcGo_escaped (d : Int) (acc : List Char) (c : Char) (rest : List Char) :
    ebcGo '\\' d acc (c :: rest) = ebcGo c d (c :: acc) rest := by
  simp [ebcGo]

/-- Scanning a balanced segment from depth `d ≥ 1` consumes it without
returning: the depth comes back to `d` and the scan continues behind it. -/
theorem ebcGo_balanced (inner : List Char) (hB : Balanced inner) :
    ∀ (p : Char) (d : Int) (acc rest : List Char), 1 ≤ d →
      noEscBrace p inner = true →
      ebcGo p d acc (inner ++ rest) =
        ebcGo (lastD inner p) d (inner.reverse ++ acc) rest := by
  induction hB with
  | nil => intro p d acc rest _ _; simp [lastD]
  | chr c hc =>
    intro p d acc rest _ _
    simp only [List.cons_append, List.nil_append]
    rw [ebcGo_other p c hc.1 hc.2]
    rfl
  | wrap a _ ih =>
    intro p d acc rest hd hne
    have hstep : ('{' :: a ++ ['}']) ++ rest = '{' :: (a ++ ('}' :: rest)) := by
      simp
    rw [hstep]
    have hp : p ≠ '\\' := noEsc_head p '{' _ (Or.inl rfl) hne
    rw [ebcGo_open p hp]
    have hneA : noEscBrace '{' (a ++ ['}']) = true :=
      noEsc_tail p '{' (a ++ ['}']) hne
    have hneA' : noEscBrace '{' a = true := noEsc_append_left _ _ _ hneA
    rw [ih '{' (d + 1) ('{' :: acc) ('}' :: rest) (by omega) hneA']
    have hlast : lastD a '{' ≠ '\\' := by
      have h3 := noEsc_append_right '{' a ['}'] hneA
      exact noEsc_head _ '}' [] (Or.inr rfl) h3
    rw [ebcGo_close_go _ hlast _ _ _ (by omega)]
    have hd1 : d + 1 - 1 = d := by ring
    rw [hd1]
    congr 1
    · rw [show ('{' :: a ++ ['}'] : List Char) = ('{' :: a) ++ ['}'] from by simp,
        lastD_concat]
    · simp
  | app a b _ _ iha ihb =>
    intro p d acc rest hd hne
    rw [List.append_assoc]
    rw [iha p d acc (b ++ rest) hd (noEsc_append_left _ _ _ hne)]
    rw [ihb (lastD a p) d (a.reverse ++ acc) rest hd (noEsc_append_right _ _ _ hne)]
    rw [lastD_app]
    congr 1
    simp

/-- When the brace opened at the start is never closed (every prefix has
at least as many opens as closes, with margin 2 at every close), the scan
falls off the end and yields the empty string. -/
theorem ebcGo_unmatched :
    ∀ (v : List Char) (p : Char) (d : Int) (acc : List Char),
      noEscBrace p v = true →
      (∀ u r, v = u ++ '}' :: r → ((u.count '}' : Int) + 2 ≤ d + u.count '{')) →
      ebcGo p d acc v = [] := by
  intro v
  induction v with
  | nil => intro p d acc _ _; rfl
  | cons c v' ih =>
    intro p d acc hne hcnt
    by_cases h1 : c = '{'
    · subst h1
      rw [ebcGo_open p (noEsc_head p '{' v' (Or.inl rfl) hne)]
      apply ih '{' (d + 1) _ (noEsc_tail _ _ _ hne)
      intro u r hur
      have hh := hcnt ('{' :: u) r (by rw [hur]; rfl)
      rw [List.count_cons_of_ne (by decide), List.count_cons_self] at hh
      push_cast at hh ⊢
      omega
    · by_cases h2 : c = '}'
      · subst h2
        have hd2 : (2 : Int) ≤ d := by
          have := hcnt [] v' rfl
          simpa using this
        rw [ebcGo_close_go p (noEsc_head p '}' v' (Or.inr rfl) hne) _ _ _ (by omega)]
        apply ih '}' (d - 1) _ (noEsc_tail _ _ _ hne)
        intro u r hur
        have hh := hcnt ('}' :: u) r (by rw [hur]; rfl)
        rw [List.count_cons_self, List.count_cons_of_ne (by decide)] at hh
        push_cast at hh ⊢
        omega
      · rw [ebcGo_other p c h1 h2]
        apply ih c d _ (noEsc_tail _ _ _ hne)
        intro u r hur
        have hh := hcnt (c :: u) r (by rw [hur]; rfl)
        rw [List.count_cons_of_ne (fun hx => h2 hx.symm),
          List.count_cons_of_ne (fun hx => h1 hx.symm)] at hh
        exact hh

theorem ebc_entry_reduce (pre w : List Char) (h1 : lastD pre ' ' ≠ '\\') :
    extract_braced_content (pre ++ '{' :: w) pre.length = ebcGo '{' 1 [] w := by
  unfold extract_braced_content
  rw [List.drop_left]
  cases hpre : pre with
  | nil =>
    subst hpre
    simp [ebcEntry]
  | cons c cs =>
    rw [← hpre]
    have hne : pre ≠ [] := by rw [hpre]; exact List.cons_ne_nil _ _
    have hp0 : ¬ pre.length = 0 := by
      rw [hpre]; simp
    rw [if_neg hp0, getD_last_of_append pre _ ' ' hne]
    simp [ebcEntry, h1]

theorem ebc_balanced_spec (pre inner post : List Char)
    (h1 : lastD pre ' ' ≠ '\\') (h2 : Balanced inner)
    (h3 : noEscBrace '{' (inner ++ ['}']) = true) :
    extract_braced_content (pre ++ '{' :: inner ++ '}' :: post) pre.length = inner := by
  have hshape : (pre ++ '{' :: inner ++ '}' :: post) = pre ++ '{' :: (inner ++ '}' :: post) := by
    simp
  rw [hshape, ebc_entry_reduce pre (inner ++ '}' :: post) h1]
  rw [ebcGo_balanced inner h2 '{' 1 [] ('}' :: post) le_rfl (noEsc_append_left _ _ _ h3)]
  have hlast : lastD inner '{' ≠ '\\' :=
    noEsc_head _ '}' [] (Or.inr rfl) (noEsc_append_right '{' inner ['}'] h3)
  rw [ebcGo_close_ret _ hlast _ _ _ (by omega)]
  simp

theorem ebc_unmatched_spec (pre w : List Char)
    (h1 : lastD pre ' ' ≠ '\\') (hne : noEscBrace '{' w = true)
    (hU : ∀ u, u <+: w → u.count '}' ≤ u.count '{') :
    extract_braced_content (pre ++ '{' :: w) pre.length = [] := by
  rw [ebc_entry_reduce pre _ h1]
  apply ebcGo_unmatched w '{' 1 [] hne
  intro u r hur
  have hpref : u ++ ['}'] <+: w := ⟨r, by rw [hur]; simp⟩
  have := hU (u ++ ['}']) hpref
  simp only [List.count_append] at this
  have hc1 : List.count '}' ['}'] = 1 := by decide
  have hc2 : List.count '{' ['}'] = 0 := by decide
  rw [hc1, hc2] at this
  omega

theorem ebc_not_open (content : List Char) (sp : Nat)
    (h : headOr (content.drop sp) ' ' ≠ '{') :
    extract_braced_content content sp = [] := by
  unfold extract_braced_content
  cases hd : content.drop sp with
  | nil => rfl
  | cons c rest =>
    rw [hd] at h
    simp only [headOr] at h
    simp [ebcEntry, h]

/-!
## BodyExtractor (`download.extract_body` and `APPENDIX_PATTERN`)

Python source (download.py, lines 36-61).  `APPENDIX_PATTERN` is the
case-insensitive alternation
`\appendix\b | \begin{appendix} | \section\*?\{(?:appendix|appendices)(?:\s|[}\[])
 | \bibliography\{ | \bibliographystyle\{ | \end{document}`.
`re.search` yields the least index at which any alternative matches;
`matchesAt` decides a match at the head of a suffix and `findBoundary`
scans for the least such index.
-/

def bdocPat : List Char :=
  ['\\', 'b', 'e', 'g', 'i', 'n', '{', 'd', 'o', 'c', 'u', 'm', 'e', 'n', 't', '}']

def apxPat : List Char := ['\\', 'a', 'p', 'p', 'e', 'n', 'd', 'i', 'x']

def beginApxPat : List Char :=
  ['\\', 'b', 'e', 'g', 'i', 'n', '{', 'a', 'p', 'p', 'e', 'n', 'd', 'i', 'x', '}']

def secPat : List Char := ['\\', 's', 'e', 'c', 't', 'i', 'o', 'n']

def apxWord : List Char := ['a', 'p', 'p', 'e', 'n', 'd', 'i', 'x']

def apxsWord : List Char := ['a', 'p', 'p', 'e', 'n', 'd', 'i', 'c', 'e', 's']

def bibPat : List Char :=
  ['\\', 'b', 'i', 'b', 'l', 'i', 'o', 'g', 'r', 'a', 'p', 'h', 'y', '{']

def bibstylePat : List Char :=
  ['\\', 'b', 'i', 'b', 'l', 'i', 'o', 'g', 'r', 'a', 'p', 'h', 'y',
   's', 't', 'y', 'l', 'e', '{']

def endDocPat : List Char :=
  ['\\', 'e', 'n', 'd', '{', 'd', 'o', 'c', 'u', 'm', 'e', 'n', 't', '}']

/-- The `(?:\s|[}\[])` follower required after `appendix`/`appendices`
inside a section heading; it needs an actual character (end-of-text fails). -/
def followerOk : List Char → Bool
  | [] => false
  | c :: _ => isSpaceChar c || c = '}' || c = '['

/-- `\appendix\b` at the head of `s`: the word boundary holds when the
next character is absent or not a word character. -/
def apxCmdAt (s : List Char) : Bool :=
  isPrefixCI apxPat s && !(isWordChar (headOr (s.drop 9) ' '))

/-- `\section\*?\{(?:appendix|appendices)(?:\s|[}\[])` at the head of `s`. -/
def secApxAt (s : List Char) : Bool :=
  if isPrefixCI secPat s then
    let t0 := s.drop 8
    let t1 := if headOr t0 ' ' = '*' then t0.drop 1 else t0
    if headOr t1 ' ' = '{' then
      let t2 := t1.drop 1
      (isPrefixCI apxWord t2 && followerOk (t2.drop 8)) ||
        (isPrefixCI apxsWord t2 && followerOk (t2.drop 10))
    else false
  else false

/-- Some alternative of `APPENDIX_PATTERN` matches at the head of `s`. -/
def matchesAt (s : List Char) : Bool :=
  apxCmdAt s || isPrefixCI beginApxPat s || secApxAt s ||
    isPrefixCI bibPat s || isPrefixCI bibstylePat s || isPrefixCI endDocPat s

/-- `APPENDIX_PATTERN.search(body)`: least index with a match. -/
def findBoundary : List Char → Option Nat
  | [] => none
  | c :: rest =>
    if matchesAt (c :: rest) then some 0 else (findBoundary rest).map (· + 1)

/-- `download.extract_body`: body after `\begin{document}`, truncated at
the first `APPENDIX_PATTERN` match, whitespace-stripped; empty when the
document-begin marker is absent. -/
def extract_body (content : List Char) : List Char :=
  match findSub bdocPat content with
  | none => []
  | some i =>
    match findBoundary (content.drop (i + 16)) with
    | some j => stripWS ((content.drop (i + 16)).take j)
    | none => stripWS (content.drop (i + 16))

theorem findBoundary_min (s : List Char) (j : Nat) (h : findBoundary s = some j) :
    matchesAt (s.drop j) = true ∧ ∀ k, k < j → matchesAt (s.drop k) = false := by
  induction s generalizing j with
  | nil => exact absurd h (by simp [findBoundary])
  | cons c rest ih =>
    by_cases hm : matchesAt (c :: rest) = true
    · simp only [findBoundary, if_pos hm, Option.some_inj] at h
      subst h
      exact ⟨hm, fun k hk => absurd hk (by omega)⟩
    · simp only [findBoundary, if_neg hm] at h
      cases hrec : findBoundary rest with
      | none => rw [hrec] at h; exact absurd h (by simp)
      | some j' =>
        rw [hrec] at h
        simp only [Option.map_some', Option.some_inj] at h
        subst h
        obtain ⟨h1, h2⟩ := ih j' hrec
        refine ⟨h1, fun k hk => ?_⟩
        cases k with
        | zero => simpa using (Bool.eq_false_iff.mpr hm)
        | succ k' => exact h2 k' (by omega)

theorem findBoundary_eq_some (s : List Char) (n : Nat)
    (h1 : ∀ k, k < n → matchesAt (s.drop k) = false)
    (h2 : matchesAt (s.drop n) = true) : findBoundary s = some n := by
  induction s generalizing n with
  | nil =>
    exfalso
    rw [List.drop_nil] at h2
    exact absurd h2 (by decide)
  | cons c rest ih =>
    cases n with
    | zero =>
      rw [List.drop_zero] at h2
      simp [findBoundary, h2]
    | succ n' =>
      have h0 : matchesAt (c :: rest) = false := by
        have := h1 0 (by omega)
        simpa using this
      simp only [findBoundary, h0, Bool.false_eq_true, if_false]
      rw [ih n' (fun k hk => h1 (k + 1) (by omega)) h2]
      rfl

theorem findBoundary_eq_none (s : List Char)
    (h : ∀ k, matchesAt (s.drop k) = false) : findBoundary s = none := by
  induction s with
  | nil => rfl
  | cons c rest ih =>
    have h0 : matchesAt (c :: rest) = false := by simpa using h 0
    simp only [findBoundary, h0, Bool.false_eq_true, if_false]
    rw [ih (fun k => by simpa using h (k + 1))]
    rfl

theorem matchesAt_apx (r : List Char) (h : isWordChar (headOr r ' ') = false) :
    matchesAt (apxPat ++ r) = true := by
  have hdrop : (apxPat ++ r).drop 9 = r := by
    rw [show 9 = apxPat.length from rfl, List.drop_left]
  unfold matchesAt apxCmdAt
  rw [hdrop]
  simp [isPrefixCI_append, h]

/-!
## InclusionExpander (`LaTeXParser.expand_inputs`)

Python source (extract_latex.py, lines 78-104):
`re.sub(r"\\(?:input|include)\{([^}]+)\}", _replace, content)` where
`_replace` resolves the filename (as given, then with `.tex` appended),
reads it and recursively expands it at `depth + 1`; `if depth > 10` the
content is returned unchanged.  Unresolvable directives stay verbatim.
The replacement text is not rescanned by the same pass (`re.sub`
semantics); nested expansion happens only through the recursive call.

The filesystem is modelled as a flat name-to-content map (`FileSys`);
directory structure (`base_dir` threading) is elided, matching archives
whose files live in a single directory.  The Python recursion depth `d`
corresponds to the remaining budget `11 - d`.
-/

def inputPat : List Char := ['\\', 'i', 'n', 'p', 'u', 't', '{']

def includePat : List Char := ['\\', 'i', 'n', 'c', 'l', 'u', 'd', 'e', '{']

def texExt : List Char := ['.', 't', 'e', 'x']

/-- Parse `([^}]+)\}` after the `k` pattern characters: the group must be
non-empty and closed.  Returns the filename and total match length. -/
def parseIncName (s : List Char) (k : Nat) : Option (List Char × Nat) :=
  let t := s.drop k
  let name := t.takeWhile (fun c => !(c = '}'))
  if name = [] then none
  else if headOr (t.drop name.length) ' ' = '}' then some (name, k + name.length + 1)
  else none

/-- A `\input{...}` or `\include{...}` directive at the head of `s`. -/
def tryDirective (s : List Char) : Option (List Char × Nat) :=
  if isPrefixL inputPat s then parseIncName s 7
  else if isPrefixL includePat s then parseIncName s 9
  else none

/-- Flat filesystem: association list from filename to file content. -/
abbrev FileSys := List (List Char × List Char)

def lookupFS : FileSys → List Char → Option (List Char)
  | [], _ => none
  | (n, c) :: rest, name => if n = name then some c else lookupFS rest name

/-- Candidate resolution: the name as given, then with `.tex` appended. -/
def lookupFile (fs : FileSys) (name : List Char) : Option (List Char) :=
  match lookupFS fs name with
  | some c => some c
  | none => lookupFS fs (name ++ texExt)

/-- The `re.sub` scan of one `expand_inputs` level.  `recur` is the
expansion of an included file's content at the next depth; `skip`
implements the jump over an already-consumed match. -/
def scanExpand (fs : FileSys) (recur : List Char → List Char) :
    Nat → List Char → List Char
  | skip + 1, _ :: rest => scanExpand fs recur skip rest
  | _, [] => []
  | 0, c :: rest =>
    match tryDirective (c :: rest) with
    | some (name, n) =>
      (match lookupFile fs name with
        | some sub => recur sub
        | none => (c :: rest).take n) ++ scanExpand fs recur (n - 1) rest
    | none => c :: scanExpand fs recur 0 rest

/-- Budgeted expansion: budget `b` corresponds to Python depth `11 - b`;
budget 0 is the `depth > 10` guard returning the content unchanged. -/
def expandB (fs : FileSys) : Nat → List Char → List Char
  | 0, content => content
  | b + 1, content => scanExpand fs (expandB fs b) 0 content

/-- `LaTeXParser.expand_inputs` at recursion depth `depth`. -/
def expand_inputs (fs : FileSys) (depth : Nat) (content : List Char) : List Char :=
  expandB fs (11 - depth) content

/-- The text contains no inclusion directive at any position. -/
def noDirective : List Char → Bool
  | [] => true
  | c :: rest => (tryDirective (c :: rest)).isNone && noDirective rest

theorem scanExpand_id (fs : FileSys) (recur : List Char → List Char) :
    ∀ l : List Char, noDirective l = true → scanExpand fs recur 0 l = l := by
  intro l
  induction l with
  | nil => intro _; rfl
  | cons c rest ih =>
    intro h
    simp only [noDirective, Bool.and_eq_true, Option.isNone_iff_eq_none] at h
    simp only [scanExpand, h.1]
    rw [ih h.2]

theorem expandB_id (fs : FileSys) (b : Nat) (content : List Char)
    (h : noDirective content = true) : expandB fs b content = content := by
  cases b with
  | zero => rfl
  | succ b' => exact scanExpand_id fs (expandB fs b') content h

/-!
## PaperProcessor (`LaTeXDownloader` / `download.main`)

`download_paper` (download.py, lines 116-155) checks for an existing
artifact (→ `skipped`), runs fetch/extract (→ `no_source` /
`extract_failed`), builds the body text (`None` → `no_main_tex`, empty →
`empty_body`), and otherwise writes the artifact (→ `success`).  The
network fetch and the archive bytes are abstracted into a `pipe` result
per identifier; the output directory is a store keyed by identifier.
-/

inductive Outcome
  | success | skipped | no_source | extract_failed | no_main_tex | empty_body
deriving DecidableEq

/-- `LaTeXDownloader._build_body_text` given the main file's raw content
(`none` when `find_main_tex_file` found nothing).  `fmt` abstracts
`_latex_to_markdown` (pandoc with `clean_latex` fallback), which is only
invoked on a non-empty body. -/
def build_body_text (fmt : List Char → List Char) (fs : FileSys)
    (mainContent : Option (List Char)) : Option (List Char) :=
  match mainContent with
  | none => none
  | some raw =>
    let content := expand_inputs fs 0 (strip_comments raw)
    let body := extract_body content
    if body = [] then some [] else some (fmt body)

/-- The outcome `download_paper` derives from `_build_body_text`'s result
(download.py, lines 140-152): `None` → `no_main_tex`, empty string →
`empty_body`, otherwise `success` (and the artifact is written). -/
def classify_build : Option (List Char) → Outcome
  | none => Outcome.no_main_tex
  | some [] => Outcome.empty_body
  | some (_ :: _) => Outcome.success

/-- Result of the fetch-and-extract-and-build part of the pipeline for
one identifier, abstracting network and filesystem effects. -/
inductive PipeResult
  | no_source | extract_failed | no_main_tex
  | body (t : List Char)

/-- The artifact directory: identifier to artifact content. -/
abbrev Store := List (Nat × List Char)

def lookupStore : Store → Nat → Option (List Char)
  | [], _ => none
  | (k, v) :: rest, pid => if k = pid then some v else lookupStore rest pid

/-- `txt_path.write_text`: create or overwrite the artifact. -/
def insertStore (s : Store) (pid : Nat) (v : List Char) : Store :=
  (pid, v) :: s

/-- `LaTeXDownloader.download_paper`: skip when the artifact exists,
otherwise derive the outcome from the pipeline result and write the
artifact only on success. -/
def download_paper_fs (pipe : Nat → PipeResult) (store : Store) (pid : Nat) :
    Outcome × Store :=
  if (lookupStore store pid).isSome then (Outcome.skipped, store)
  else
    match pipe pid with
    | PipeResult.no_source => (Outcome.no_source, store)
    | PipeResult.extract_failed => (Outcome.extract_failed, store)
    | PipeResult.no_main_tex => (Outcome.no_main_tex, store)
    | PipeResult.body [] => (Outcome.empty_body, store)
    | PipeResult.body (c :: t) => (Outcome.success, insertStore store pid (c :: t))

def runLoop (pipe : Nat → PipeResult) : Store → List Nat → List Outcome × Store
  | store, [] => ([], store)
  | store, pid :: rest =>
    match download_paper_fs pipe store pid with
    | (o, store') =>
      match runLoop pipe store' rest with
      | (os, store'') => (o :: os, store'')

/-- `download.main` (lines 262-267): every pre-existing `.txt` artifact is
unlinked before the loop starts. -/
def clearTxt (_s : Store) : Store := []

/-- `download.main`: remove stale artifacts, then process the roster. -/
def run_main (pipe : Nat → PipeResult) (store0 : Store) (roster : List Nat) :
    List Outcome × Store :=
  runLoop pipe (clearTxt store0) roster

/-!
## Exception propagation model (`download_paper` / `download.main`)

`download_paper` wraps its pipeline in `try ... finally` with **no**
`except` clause: the `finally` only removes the temporary directory.  The
run loop in `main` calls `download_paper` without a handler either.  Each
step is modelled as an `Except` value: `.error` is a raised Python
exception, and the model propagates it exactly where the source has no
handler.
-/

inductive PyExc
  | osError | timeoutExpired | keyError | otherExc
deriving DecidableEq

inductive FetchStatus
  | ok | no_source | extract_failed

/-- `LaTeXDownloader.download_paper` with exception-transparent steps:
`fetchExtract` models `_fetch_and_extract`, `buildBody` models
`_build_body_text`, `writeArtifact` models `txt_path.write_text`. -/
def download_paper_exc (artifactExists : Bool)
    (fetchExtract : Except PyExc FetchStatus)
    (buildBody : Except PyExc (Option (List Char)))
    (writeArtifact : Except PyExc Unit) : Except PyExc Outcome :=
  if artifactExists then Except.ok Outcome.skipped
  else
    match fetchExtract with
    | Except.error e => Except.error e
    | Except.ok FetchStatus.no_source => Except.ok Outcome.no_source
    | Except.ok FetchStatus.extract_failed => Except.ok Outcome.extract_failed
    | Except.ok FetchStatus.ok =>
      match buildBody with
      | Except.error e => Except.error e
      | Except.ok none => Except.ok Outcome.no_main_tex
      | Except.ok (some []) => Except.ok Outcome.empty_body
      | Except.ok (some (_ :: _)) =>
        match writeArtifact with
        | Except.error e => Except.error e
        | Except.ok _ => Except.ok Outcome.success

/-- The `for paper in papers` loop of `download.main`, which calls
`download_paper` without any exception handler. -/
def run_loop_exc (dp : Nat → Except PyExc Outcome) :
    List Nat → Except PyExc (List Outcome)
  | [] => Except.ok []
  | pid :: rest =>
    match dp pid with
    | Except.error e => Except.error e
    | Except.ok o =>
      match run_loop_exc dp rest with
      | Except.error e => Except.error e
      | Except.ok os => Except.ok (o :: os)

/-!
## TextNormalizer (`LaTeXParser.clean_latex`)

Python source (extract_latex.py, lines 138-162): eight sequential
`re.sub` passes.  Each pass is a left-to-right scan replacing
non-overlapping matches; replacements are not rescanned within a pass.
`scanReplace f` runs such a pass, where `f s` decides a match at the head
of the suffix `s`, returning the total match length and the replacement.
-/

def scanReplace (f : List Char → Option (Nat × List Char)) :
    Nat → List Char → List Char
  | skip + 1, _ :: rest => scanReplace f skip rest
  | _, [] => []
  | 0, c :: rest =>
    match f (c :: rest) with
    | some (n, rep) => rep ++ scanReplace f (n - 1) rest
    | none => c :: scanReplace f 0 rest

/-- Match `\\(?:w1|w2|...)\{[^}]*\}` at the head of `s`: the first listed
command name followed by a braced (closed) argument; returns the total
length and the argument.  At most one alternative can apply because each
requires its own name followed immediately by `{`. -/
def cmdArgAt : List (List Char) → List Char → Option (Nat × List Char)
  | [], _ => none
  | w :: ws, s =>
    if isPrefixL ('\\' :: w ++ ['{']) s then
      let t := s.drop (w.length + 2)
      let body := t.takeWhile (fun c => !(c = '}'))
      if headOr (t.drop body.length) ' ' = '}' then
        some (w.length + 2 + body.length + 1, body)
      else none
    else cmdArgAt ws s

def citeNames : List (List Char) :=
  [['c', 'i', 't', 'e'], ['r', 'e', 'f'], ['l', 'a', 'b', 'e', 'l'],
   ['e', 'q', 'r', 'e', 'f'], ['c', 'r', 'e', 'f'], ['C', 'r', 'e', 'f']]

def unwrapNames : List (List Char) :=
  [['e', 'm', 'p', 'h'], ['t', 'e', 'x', 't', 'b', 'f'],
   ['t', 'e', 'x', 't', 'i', 't'], ['t', 'e', 'x', 't'],
   ['t', 'e', 'x', 't', 'r', 'm'], ['t', 'e', 'x', 't', 's', 'c']]

/-- Pass 1: `\cite{..}` etc. removed with their argument. -/
def citeM (s : List Char) : Option (Nat × List Char) :=
  (cmdArgAt citeNames s).map (fun p => (p.1, []))

/-- Pass 2: `\emph{..}` etc. unwrapped to their argument. -/
def unwrapM (s : List Char) : Option (Nat × List Char) :=
  cmdArgAt unwrapNames s

/-- Passes 3, 4, 6: a delimited block `op ... cl` (DOTALL, non-greedy:
nearest closing delimiter), removed entirely. -/
def delimM (op cl : List Char) (s : List Char) : Option (Nat × List Char) :=
  if isPrefixL op s then
    match findSub cl (s.drop op.length) with
    | some j => some (op.length + j + cl.length, [])
    | none => none
  else none

/-- Pass 5 helper: position of the closing `$` of
`(?<!\$)\$(?!\$).*?(?<!\$)\$(?!\$)` inside the text after the opening
`$`; `.` does not cross a newline. -/
def fdc (prevc : Char) : List Char → Option Nat
  | [] => none
  | c :: rest =>
    if c = '$' && prevc != '$' && headOr rest ' ' != '$' then some 0
    else if c = '\n' then none
    else (fdc c rest).map (· + 1)

/-- Pass 5: single-dollar inline math removed; `prev` carries the
previous character of the original text for the lookbehinds. -/
def sidGo : Char → Nat → List Char → List Char
  | _, skip + 1, c :: rest => sidGo c skip rest
  | _, _, [] => []
  | prevc, 0, c :: rest =>
    if c = '$' && prevc != '$' && headOr rest ' ' != '$' then
      match fdc '$' rest with
      | some k => sidGo '$' (k + 1) rest
      | none => c :: sidGo c 0 rest
    else c :: sidGo c 0 rest

def stripInlineDollar (l : List Char) : List Char := sidGo ' ' 0 l

/-- Pass 7 helper: `(?:\{[^}]*\})*` — greedily consume complete braced
groups, returning the consumed length. -/
def braceGroups : Nat → List Char → Nat
  | skip + 1, _ :: rest => braceGroups skip rest
  | _, [] => 0
  | 0, c :: rest =>
    if c = '{' then
      let b := rest.takeWhile (fun x => !(x = '}'))
      if headOr (rest.drop b.length) ' ' = '}' then
        (b.length + 2) + braceGroups (b.length + 1) rest
      else 0
    else 0

/-- Pass 7: `\\[a-zA-Z]+\*?(?:\[[^\]]*\])?(?:\{[^}]*\})*` — remaining
commands removed with their arguments. -/
def cmdTokenM (s : List Char) : Option (Nat × List Char) :=
  match s with
  | '\\' :: t =>
    let letters := t.takeWhile (fun c => c.isAlpha)
    if letters = [] then none
    else
      let t1 := t.drop letters.length
      let starLen := if headOr t1 ' ' = '*' then 1 else 0
      let t2 := t1.drop starLen
      let brLen :=
        if headOr t2 ' ' = '[' then
          let b := (t2.drop 1).takeWhile (fun c => !(c = ']'))
          if headOr ((t2.drop 1).drop b.length) ' ' = ']' then b.length + 2 else 0
        else 0
      let t3 := t2.drop brLen
      some (1 + letters.length + starLen + brLen + braceGroups 0 t3, [])
  | _ => none

/-- Pass 8: strip stray braces. -/
def removeBraces (l : List Char) : List Char :=
  l.filter (fun c => !(c = '{' || c = '}'))

/-- Pass 9 (first half): `re.sub(r"\s+", " ", text)` — collapse each
whitespace run to a single space.  The flag records whether the previous
character belonged to a run already replaced. -/
def collapseWS : Bool → List Char → List Char
  | _, [] => []
  | prevSpace, c :: rest =>
    if isSpaceChar c then
      if prevSpace then collapseWS true rest
      else ' ' :: collapseWS true rest
    else c :: collapseWS false rest

/-- `LaTeXParser.clean_latex`: the eight passes in source order, then
whitespace collapse and strip. -/
def clean_latex (text : List Char) : List Char :=
  stripWS (collapseWS false (removeBraces (scanReplace cmdTokenM 0
    (scanReplace (delimM ['$', '$'] ['$', '$']) 0
      (stripInlineDollar
        (scanReplace (delimM ['\\', '('] ['\\', ')']) 0
          (scanReplace (delimM ['\\', '['] ['\\', ']']) 0
            (scanReplace unwrapM 0
              (scanReplace citeM 0 text)))))))))

/-!
## Introduction extractor (`LaTeXParser.extract_introduction`)

Python source (extract_latex.py, lines 252-276).  The heading regex
`\\section\*?\{(?:\d+\.?\s*)?[Ii]ntroduction\}` is compiled **without**
`re.IGNORECASE`: only the first letter of "introduction" may vary in
case.  The section text runs to the first of
`\\(?:section|bibliography|appendix|end\{document\})` (or end of text),
is normalized by `clean_latex`, and hard-truncated to 2000 characters.
-/

def introTail : List Char :=
  ['n', 't', 'r', 'o', 'd', 'u', 'c', 't', 'i', 'o', 'n', '}']

/-- `[Ii]ntroduction\}` at the head of `t`. -/
def introCore (t : List Char) : Bool :=
  (headOr t ' ' = 'I' || headOr t ' ' = 'i') && isPrefixL introTail (t.drop 1)

/-- `(?:\d+\.?\s*)?[Ii]ntroduction\}` after the opening brace; returns
the number of characters consumed (closing brace included). -/
def introAfterBrace (t : List Char) : Option Nat :=
  let digits := t.takeWhile (fun c => c.isDigit)
  if digits = [] then
    if introCore t then some 13 else none
  else
    let t1 := t.drop digits.length
    let perLen := if headOr t1 ' ' = '.' then 1 else 0
    let t2 := t1.drop perLen
    let sp := t2.takeWhile isSpaceChar
    let t3 := t2.drop sp.length
    if introCore t3 then some (digits.length + perLen + sp.length + 13) else none

/-- The introduction heading regex at the head of `s`; returns the match
length. -/
def introMatchLen (s : List Char) : Option Nat :=
  if isPrefixL secPat s then
    let t0 := s.drop 8
    let starLen := if headOr t0 ' ' = '*' then 1 else 0
    let t1 := t0.drop starLen
    if headOr t1 ' ' = '{' then
      (introAfterBrace (t1.drop 1)).map (fun k => 8 + starLen + 1 + k)
    else none
  else none

/-- `re.search` for the heading: least position and match length. -/
def findIntroMatch : List Char → Option (Nat × Nat)
  | [] => none
  | c :: rest =>
    match introMatchLen (c :: rest) with
    | some k => some (0, k)
    | none => (findIntroMatch rest).map (fun p => (p.1 + 1, p.2))

def bibWordPat : List Char :=
  ['\\', 'b', 'i', 'b', 'l', 'i', 'o', 'g', 'r', 'a', 'p', 'h', 'y']

/-- `\\(?:section|bibliography|appendix|end\{document\})` at the head. -/
def endBAt (s : List Char) : Bool :=
  isPrefixL secPat s || isPrefixL bibWordPat s ||
    isPrefixL apxPat s || isPrefixL endDocPat s

def findEndB : List Char → Option Nat
  | [] => none
  | c :: rest => if endBAt (c :: rest) then some 0 else (findEndB rest).map (· + 1)

/-- The end of the introduction slice within `content[start:]`: position
of the first boundary command, or the length of the remaining text. -/
def introSliceEnd (tail : List Char) : Nat :=
  match findEndB tail with
  | some j => j
  | none => tail.length

/-- `LaTeXParser.extract_introduction`. -/
def extract_introduction (content : List Char) : List Char :=
  match findIntroMatch content with
  | none => []
  | some (pos, len) =>
    let tail := content.drop (pos + len)
    (clean_latex (tail.take (introSliceEnd tail))).take 2000

/-- `\section{Introduction}` as written. -/
def secIntroTitle : List Char :=
  secPat ++ ['{', 'I', 'n', 't', 'r', 'o', 'd', 'u', 'c', 't', 'i', 'o', 'n', '}']

/-- `\section{introduction}` (lowercase first letter). -/
def secIntroLower : List Char :=
  secPat ++ ['{', 'i', 'n', 't', 'r', 'o', 'd', 'u', 'c', 't', 'i', 'o', 'n', '}']

/-- `\section{INTRODUCTION}` (fully uppercase title). -/
def secIntroUpper : List Char :=
  secPat ++ ['{', 'I', 'N', 'T', 'R', 'O', 'D', 'U', 'C', 'T', 'I', 'O', 'N', '}']

/-!
## Authors extractor (`LaTeXParser.extract_authors`)

Python source (extract_latex.py, lines 176-204): find
`\\author\s*(?:\[[^\]]*\])?\s*\{`, take the brace-balanced argument,
remove affiliation/thanks/email/inst/orcid/fnmark sub-commands and
affiliationmark/thanksmark markers, split on `\and`/`\\`/word `and`,
split each part on commas, normalize each piece and keep it only when it
is non-empty, longer than one character, and does not start with `(`.
-/

def authorCmd : List Char := ['\\', 'a', 'u', 't', 'h', 'o', 'r']

/-- `\\author\s*(?:\[[^\]]*\])?\s*\{` at the head of `s`; returns the
match length (the final `{` included). -/
def authorMatchLen (s : List Char) : Option Nat :=
  if isPrefixL authorCmd s then
    let t := s.drop 7
    let ws1 := t.takeWhile isSpaceChar
    let t1 := t.drop ws1.length
    if headOr t1 ' ' = '[' then
      let b := (t1.drop 1).takeWhile (fun c => !(c = ']'))
      if headOr ((t1.drop 1).drop b.length) ' ' = ']' then
        let t2 := (t1.drop 1).drop (b.length + 1)
        let ws2 := t2.takeWhile isSpaceChar
        let t3 := t2.drop ws2.length
        if headOr t3 ' ' = '{' then
          some (7 + ws1.length + (b.length + 2) + ws2.length + 1)
        else none
      else none
    else if headOr t1 ' ' = '{' then some (7 + ws1.length + 1) else none
  else none

def findAuthor : List Char → Option (Nat × Nat)
  | [] => none
  | c :: rest =>
    match authorMatchLen (c :: rest) with
    | some k => some (0, k)
    | none => (findAuthor rest).map (fun p => (p.1 + 1, p.2))

def subCmdNames : List (List Char) :=
  [['a', 'f', 'f', 'i', 'l', 'i', 'a', 't', 'i', 'o', 'n'],
   ['t', 'h', 'a', 'n', 'k', 's'], ['e', 'm', 'a', 'i', 'l'],
   ['i', 'n', 's', 't'], ['o', 'r', 'c', 'i', 'd'],
   ['f', 'n', 'm', 'a', 'r', 'k']]

/-- First author sub-pass:
`\\(?:affiliation|thanks|email|inst|orcid|fnmark)\{[^}]*\}` removed. -/
def subCmdM (s : List Char) : Option (Nat × List Char) :=
  (cmdArgAt subCmdNames s).map (fun p => (p.1, []))

def markNames : List (List Char) :=
  [['a', 'f', 'f', 'i', 'l', 'i', 'a', 't', 'i', 'o', 'n',
    'm', 'a', 'r', 'k'],
   ['t', 'h', 'a', 'n', 'k', 's', 'm', 'a', 'r', 'k']]

/-- Second author sub-pass:
`\\(?:affiliationmark|thanksmark)\s*(?:\[[^\]]*\])?` removed; an
unclosed bracket group simply matches zero-width. -/
def markAt : List (List Char) → List Char → Option (Nat × List Char)
  | [], _ => none
  | w :: ws, s =>
    if isPrefixL ('\\' :: w) s then
      let t := s.drop (1 + w.length)
      let sp := t.takeWhile isSpaceChar
      let t1 := t.drop sp.length
      let brLen :=
        if headOr t1 ' ' = '[' then
          let b := (t1.drop 1).takeWhile (fun c => !(c = ']'))
          if headOr ((t1.drop 1).drop b.length) ' ' = ']' then b.length + 2 else 0
        else 0
      some (1 + w.length + sp.length + brLen, [])
    else markAt ws s

def markM (s : List Char) : Option (Nat × List Char) :=
  markAt markNames s

def andCmd : List Char := ['\\', 'a', 'n', 'd']

def andWord : List Char := ['a', 'n', 'd']

/-- `\\and\b|\\\\|\band\b` at the head of `s`, with `prev` the previous
character of the original text (for `\b`). -/
def splitMatchAt (prev : Char) (s : List Char) : Option Nat :=
  if isPrefixL andCmd s && !(isWordChar (headOr (s.drop 4) ' ')) then some 4
  else if isPrefixL ['\\', '\\'] s then some 2
  else if isPrefixL andWord s && !(isWordChar prev) &&
      !(isWordChar (headOr (s.drop 3) ' ')) then some 3
  else none

/-- `re.split` scan: `cur` accumulates (reversed) the current segment. -/
def splitAndGo (prev : Char) (cur : List Char) : Nat → List Char → List (List Char)
  | skip + 1, c :: rest => splitAndGo c cur skip rest
  | _, [] => [cur.reverse]
  | 0, c :: rest =>
    match splitMatchAt prev (c :: rest) with
    | some n => cur.reverse :: splitAndGo c [] (n - 1) rest
    | none => splitAndGo c (c :: cur) 0 rest

def splitAnd (l : List Char) : List (List Char) := splitAndGo ' ' [] 0 l

/-- Python `str.split(",")`. -/
def splitComma : List Char → List (List Char)
  | [] => [[]]
  | c :: rest =>
    if c = ',' then [] :: splitComma rest
    else
      match splitComma rest with
      | [] => [[c]]
      | s :: ss => (c :: s) :: ss

/-- The flat, ordered list of raw author segments the Python loop
iterates over (`for part in parts: for sub in part.split(",")`). -/
def authorSubsOf (content : List Char) : List (List Char) :=
  match findAuthor content with
  | none => []
  | some (pos, len) =>
    let raw := extract_braced_content content (pos + len - 1)
    if raw = [] then []
    else ((splitAnd (scanReplace markM 0 (scanReplace subCmdM 0 raw))).map
      splitComma).flatten

/-- `clean_latex(sub).strip()` applied to one segment. -/
def cleanSeg (sub : List Char) : List Char := stripWS (clean_latex sub)

/-- The Python keep-condition
`cleaned and len(cleaned) > 1 and not cleaned.startswith("(")`. -/
def keepAuthor (c : List Char) : Bool :=
  !(c = ([] : List Char)) && (1 < c.length : Bool) && !(headOr c ' ' = '(')

/-- `LaTeXParser.extract_authors`. -/
def extract_authors (content : List Char) : List (List Char) :=
  (authorSubsOf content).filterMap (fun sub =>
    let c := cleanSeg sub
    if c ≠ [] ∧ 1 < c.length ∧ headOr c ' ' ≠ '(' then some c else none)

/-!
## ArchiveExtractor tar-member filter
(`LaTeXMetadataExtractor.extract_source`, extract_latex.py, lines 343-354)

The tar branch enumerates members and drops every member whose name
starts with `/` or contains `..` as a substring; the remaining members
are extracted under the target directory.  Members are modelled by their
names; `resolveSegs` models POSIX path resolution of `target/name`
(`..` pops, `.` and empty segments are skipped), so "the resolved path
stays below the target" is "the target segment stack is a prefix of the
resolved segment stack".
-/

def splitSlashAux (cur : List Char) : List Char → List (List Char)
  | [] => [cur.reverse]
  | c :: rest =>
    if c = '/' then cur.reverse :: splitSlashAux [] rest
    else splitSlashAux (c :: cur) rest

/-- Split a member name into `/`-separated segments. -/
def splitSlash (name : List Char) : List (List Char) := splitSlashAux [] name

def dotdot : List Char := ['.', '.']

/-- `member.name.startswith("/") or ".." in member.name`. -/
def unsafeName (name : List Char) : Bool :=
  headOr name ' ' = '/' || containsSub dotdot name

/-- The member filter of `extract_source`'s tar branch. -/
def safe_members (ms : List (List Char)) : List (List Char) :=
  ms.filter (fun n => !(unsafeName n))

/-- Resolve path segments against a base segment stack. -/
def resolveSegs (acc : List (List Char)) : List (List Char) → List (List Char)
  | [] => acc
  | seg :: rest =>
    if seg = dotdot then resolveSegs acc.dropLast rest
    else if seg = [] ∨ seg = ['.'] then resolveSegs acc rest
    else resolveSegs (acc ++ [seg]) rest

theorem middle_extend_cons {l t : List Char} (a : Char) (h : l <:+: t) :
    l <:+: a :: t := by
  obtain ⟨s, r, hsr⟩ := h
  exact ⟨a :: s, r, by rw [← hsr]; simp⟩

theorem splitSlashAux_cases (s : List Char) :
    ∀ (cur ss : List Char), ss ∈ splitSlashAux cur s →
      (∃ t, t <+: s ∧ ss = cur.reverse ++ t) ∨ ss <:+: s := by
  induction s with
  | nil =>
    intro cur ss h
    simp only [splitSlashAux, List.mem_singleton] at h
    exact Or.inl ⟨[], List.nil_prefix, by simp [h]⟩
  | cons c rest ih =>
    intro cur ss h
    by_cases hc : c = '/'
    · rw [splitSlashAux, if_pos hc] at h
      rcases List.mem_cons.mp h with h1 | h1
      · exact Or.inl ⟨[], ⟨c :: rest, rfl⟩, by simp [h1]⟩
      · rcases ih [] ss h1 with ⟨t, ht, rfl⟩ | hinf
        · exact Or.inr (middle_extend_cons c (ht.isInfix.trans (by simp)))
        · exact Or.inr (middle_extend_cons c hinf)
    · rw [splitSlashAux, if_neg hc] at h
      rcases ih (c :: cur) ss h with ⟨t, ht, rfl⟩ | hinf
      · refine Or.inl ⟨c :: t, ?_, by simp⟩
        obtain ⟨z, hz⟩ := ht
        exact ⟨z, by rw [List.cons_append, hz]⟩
      · exact Or.inr (middle_extend_cons c hinf)

theorem containsSub_of_dotdot_seg (name : List Char)
    (h : dotdot ∈ splitSlash name) : containsSub dotdot name = true := by
  rcases splitSlashAux_cases name [] dotdot h with ⟨t, ht, hteq⟩ | hinf
  · simp only [List.reverse_nil, List.nil_append] at hteq
    exact containsSub_of_infix _ _ (by decide) (hteq ▸ ht.isInfix)
  · exact containsSub_of_infix _ _ (by decide) hinf

theorem resolveSegs_keeps_base (segs : List (List Char))
    (hno : ∀ seg ∈ segs, seg ≠ dotdot) :
    ∀ acc, acc <+: resolveSegs acc segs := by
  induction segs with
  | nil => intro acc; exact List.prefix_refl acc
  | cons seg rest ih =>
    intro acc
    have hseg : seg ≠ dotdot := hno seg (List.mem_cons_self _ _)
    have hrest : ∀ s ∈ rest, s ≠ dotdot := fun s hs => hno s (List.mem_cons_of_mem _ hs)
    rw [resolveSegs, if_neg hseg]
    by_cases he : seg = [] ∨ seg = ['.']
    · rw [if_pos he]
      exact ih hrest acc
    · rw [if_neg he]
      exact (List.prefix_append acc [seg]).trans (ih hrest (acc ++ [seg]))

/-!
## Helper lemmas for the search and filter characterizations
-/

theorem findIntroMatch_min (content : List Char) (pos len : Nat)
    (h : findIntroMatch content = some (pos, len)) :
    (∀ k, k < pos → introMatchLen (content.drop k) = none) ∧
      introMatchLen (content.drop pos) = some len := by
  induction content generalizing pos with
  | nil => exact absurd h (by simp [findIntroMatch])
  | cons c rest ih =>
    cases hm : introMatchLen (c :: rest) with
    | some k =>
      simp only [findIntroMatch, hm, Option.some_inj] at h
      have hpos : pos = 0 := by
        have := congrArg Prod.fst h
        simpa using this.symm
      have hlen : len = k := by
        have := congrArg Prod.snd h
        simpa using this.symm
      subst hpos
      subst hlen
      exact ⟨fun k' hk' => absurd hk' (by omega), by simpa using hm⟩
    | none =>
      simp only [findIntroMatch, hm] at h
      cases hrec : findIntroMatch rest with
      | none => rw [hrec] at h; exact absurd h (by simp)
      | some p =>
        rw [hrec] at h
        simp only [Option.map_some', Option.some_inj] at h
        have hpos : pos = p.1 + 1 := by
          have := congrArg Prod.fst h
          simpa using this.symm
        have hlen : len = p.2 := by
          have := congrArg Prod.snd h
          simpa using this.symm
        obtain ⟨ih1, ih2⟩ := ih p.1 (by rw [hlen]; exact hrec)
        subst hpos
        constructor
        · intro k hk
          cases k with
          | zero => simpa using hm
          | succ k' => exact ih1 k' (by omega)
        · simpa using ih2

theorem findEndB_min (s : List Char) (j : Nat) (h : findEndB s = some j) :
    endBAt (s.drop j) = true ∧ ∀ k, k < j → endBAt (s.drop k) = false := by
  induction s generalizing j with
  | nil => exact absurd h (by simp [findEndB])
  | cons c rest ih =>
    by_cases hm : endBAt (c :: rest) = true
    · simp only [findEndB, if_pos hm, Option.some_inj] at h
      subst h
      exact ⟨hm, fun k hk => absurd hk (by omega)⟩
    · simp only [findEndB, if_neg hm] at h
      cases hrec : findEndB rest with
      | none => rw [hrec] at h; exact absurd h (by simp)
      | some j' =>
        rw [hrec] at h
        simp only [Option.map_some', Option.some_inj] at h
        subst h
        obtain ⟨h1, h2⟩ := ih j' hrec
        refine ⟨h1, fun k hk => ?_⟩
        cases k with
        | zero => simpa using (Bool.eq_false_iff.mpr hm)
        | succ k' => exact h2 k' (by omega)

theorem keepAuthor_iff (c : List Char) :
    keepAuthor c = true ↔ (c ≠ [] ∧ 1 < c.length ∧ headOr c ' ' ≠ '(') := by
  simp [keepAuthor, and_assoc]

theorem extract_authors_eq_filter (content : List Char) :
    extract_authors content = ((authorSubsOf content).map cleanSeg).filter keepAuthor := by
  unfold extract_authors
  generalize authorSubsOf content = l
  induction l with
  | nil => rfl
  | cons x xs ih =>
    simp only [List.filterMap_cons, List.map_cons, List.filter_cons]
    by_cases hx : cleanSeg x ≠ [] ∧ 1 < (cleanSeg x).length ∧ headOr (cleanSeg x) ' ' ≠ '('
    · rw [if_pos hx, (keepAuthor_iff (cleanSeg x)).mpr hx, ih]
      simp
    · rw [if_neg hx, ih]
      have hk : keepAuthor (cleanSeg x) = false := by
        rcases hkk : keepAuthor (cleanSeg x) with _ | _
        · rfl
        · exact absurd ((keepAuthor_iff (cleanSeg x)).mp hkk) hx
      rw [hk]
      rfl

/-!
## Claim theorems
-/

/-- C10: `strip_comments` is idempotent — applying it to its own output
changes nothing, because after one pass every remaining `%` is preceded
by a backslash. -/
theorem C10_strip_comments_idempotent (content : List Char) :
    strip_comments (strip_comments content) = strip_comments content := by
  unfold strip_comments
  exact scAux_id_of_noUnesc _ ' ' ((scAux_noUnesc content).1 ' ')

/-- C5: `extract_braced_content` (1) returns exactly the span strictly
between the outermost matching braces when the braces from the start
index are properly nested and unescaped; (2) returns the empty string
when the opening brace is never matched; (3) returns the empty string
when the start index does not point at an opening brace; (4) a brace
preceded by the escape character never changes the nesting depth (the
scan step passes the depth through unchanged). -/
theorem C5_extract_braced_content :
    (∀ pre inner post : List Char, lastD pre ' ' ≠ '\\' → Balanced inner →
      noEscBrace '{' (inner ++ ['}']) = true →
      extract_braced_content (pre ++ '{' :: inner ++ '}' :: post) pre.length = inner) ∧
    (∀ pre w : List Char, lastD pre ' ' ≠ '\\' → noEscBrace '{' w = true →
      (∀ u, u <+: w → u.count '}' ≤ u.count '{') →
      extract_braced_content (pre ++ '{' :: w) pre.length = []) ∧
    (∀ (content : List Char) (sp : Nat), headOr (content.drop sp) ' ' ≠ '{' →
      extract_braced_content content sp = []) ∧
    (∀ (d : Int) (acc : List Char) (c : Char) (rest : List Char), c = '{' ∨ c = '}' →
      ebcGo '\\' d acc (c :: rest) = ebcGo c d (c :: acc) rest) :=
  ⟨ebc_balanced_spec, ebc_unmatched_spec, ebc_not_open,
    fun d acc c rest _ => ebcGo_escaped d acc c rest⟩

/-- C5 witness: the theorem applied to `a{b{c}d}e` at index 1. -/
theorem C5_witness :
    extract_braced_content ['a', '{', 'b', '{', 'c', '}', 'd', '}', 'e'] 1
      = ['b', '{', 'c', '}', 'd'] := by
  have h5 : Balanced ['b'] := Balanced.chr 'b' (by decide)
  have h1 : Balanced ['c'] := Balanced.chr 'c' (by decide)
  have h2 : Balanced ('{' :: ['c'] ++ ['}']) := Balanced.wrap _ h1
  have h3 : Balanced ['d'] := Balanced.chr 'd' (by decide)
  have h4 : Balanced (('{' :: ['c'] ++ ['}']) ++ ['d']) := Balanced.app _ _ h2 h3
  have h6 : Balanced (['b'] ++ (('{' :: ['c'] ++ ['}']) ++ ['d'])) := Balanced.app _ _ h5 h4
  exact C5_extract_braced_content.1 ['a'] ['b', '{', 'c', '}', 'd'] ['e']
    (by decide) h6 (by decide)

/-- C2: the tar-member filter of `extract_source` (1) drops every member
whose name is absolute or contains a parent-directory segment; (2) the
drop is local — the other members are filtered exactly as if the unsafe
member were absent (no abort); (3) every kept member resolves to a path
below the target directory. -/
theorem C2_archive_path_safety :
    (∀ (ms : List (List Char)) (n : List Char), n ∈ ms →
      (headOr n ' ' = '/' ∨ dotdot ∈ splitSlash n) → n ∉ safe_members ms) ∧
    (∀ (ms1 ms2 : List (List Char)) (bad : List Char), unsafeName bad = true →
      safe_members (ms1 ++ bad :: ms2) = safe_members ms1 ++ safe_members ms2) ∧
    (∀ (ms : List (List Char)) (n : List Char) (base : List (List Char)),
      n ∈ safe_members ms → base <+: resolveSegs base (splitSlash n)) := by
  refine ⟨?_, ?_, ?_⟩
  · intro ms n _ hbad hmem
    have hp := (List.mem_filter.mp hmem).2
    have hun : unsafeName n = true := by
      rcases hbad with h1 | h1
      · simp [unsafeName, h1]
      · simp [unsafeName, containsSub_of_dotdot_seg n h1]
    rw [hun] at hp
    exact absurd hp (by decide)
  · intro ms1 ms2 bad hbad
    unfold safe_members
    rw [List.filter_append, List.filter_cons]
    rw [hbad]
    simp
  · intro ms n base hmem
    have hp := (List.mem_filter.mp hmem).2
    have hun : unsafeName n = false := by
      cases hu : unsafeName n with
      | false => rfl
      | true => rw [hu] at hp; exact absurd hp (by decide)
    have hsub : containsSub dotdot n = false := by
      cases hc : containsSub dotdot n with
      | false => rfl
      | true =>
        have : unsafeName n = true := by simp [unsafeName, hc]
        rw [hun] at this
        exact absurd this (by decide)
    apply resolveSegs_keeps_base
    intro seg hseg hcontra
    subst hcontra
    rw [containsSub_of_dotdot_seg n hseg] at hsub
    exact absurd hsub (by decide)

/-- C2 witness: a `..`-containing member is dropped while the plain
member of the same archive is kept and resolves below the target. -/
theorem C2_witness :
    ['.', '.', '/', 'e'] ∉
      safe_members [['.', '.', '/', 'e'], ['a', '/', 'b']] ∧
    [['t', 'm', 'p']] <+:
      resolveSegs [['t', 'm', 'p']] (splitSlash ['a', '/', 'b']) :=
  ⟨C2_archive_path_safety.1 [['.', '.', '/', 'e'], ['a', '/', 'b']] ['.', '.', '/', 'e']
      (by decide) (Or.inr (by decide)),
    C2_archive_path_safety.2.2 [['.', '.', '/', 'e'], ['a', '/', 'b']] ['a', '/', 'b']
      [['t', 'm', 'p']] (by decide)⟩

/-- C6: `extract_body` truncates the body at the least index where any
alternative of the combined `APPENDIX_PATTERN` matches (earliest textual
occurrence wins), and runs to the end of the text when no alternative
occurs; in particular a body of the shape
`a ++ \appendix ++ b ++ \bibliography{ ++ c` (no alternative inside `a`,
word boundary after `\appendix`) is cut exactly at the appendix command,
not at the later bibliography command. -/
theorem C6_body_boundary_priority :
    (∀ (content : List Char) (i : Nat), findSub bdocPat content = some i →
      (∀ j, findBoundary (content.drop (i + 16)) = some j →
        extract_body content = stripWS ((content.drop (i + 16)).take j) ∧
        matchesAt ((content.drop (i + 16)).drop j) = true ∧
        ∀ k, k < j → matchesAt ((content.drop (i + 16)).drop k) = false) ∧
      ((∀ k, matchesAt ((content.drop (i + 16)).drop k) = false) →
        extract_body content = stripWS (content.drop (i + 16)))) ∧
    (∀ (content a b c : List Char) (i : Nat),
      findSub bdocPat content = some i →
      content.drop (i + 16) = a ++ (apxPat ++ (b ++ (bibPat ++ c))) →
      isWordChar (headOr (b ++ (bibPat ++ c)) ' ') = false →
      (∀ k, k < a.length →
        matchesAt ((a ++ (apxPat ++ (b ++ (bibPat ++ c)))).drop k) = false) →
      findBoundary (a ++ (apxPat ++ (b ++ (bibPat ++ c)))) = some a.length ∧
      extract_body content = stripWS a) := by
  constructor
  · intro content i hf
    constructor
    · intro j hj
      obtain ⟨h1, h2⟩ := findBoundary_min _ _ hj
      refine ⟨?_, h1, h2⟩
      simp only [extract_body, hf, hj]
    · intro hk
      have hn := findBoundary_eq_none _ hk
      simp only [extract_body, hf, hn]
  · intro content a b c i hf hbody hA hclean
    have hm : matchesAt ((a ++ (apxPat ++ (b ++ (bibPat ++ c)))).drop a.length) = true := by
      rw [List.drop_left]
      exact matchesAt_apx _ hA
    have hfb := findBoundary_eq_some _ a.length hclean hm
    refine ⟨hfb, ?_⟩
    rw [← hbody] at hfb
    simp only [extract_body, hf, hfb]
    rw [hbody, List.take_left]

/-- C6 witness: the theorem applied to a concrete document whose body is
`Body \appendix t\bibliography{x}`. -/
theorem C6_witness :
    extract_body (bdocPat ++
      (['B', 'o', 'd', 'y', ' '] ++ (apxPat ++ ([' ', 't'] ++ (bibPat ++ ['x', '}'])))))
      = ['B', 'o', 'd', 'y'] := by
  have h := C6_body_boundary_priority.2
    (bdocPat ++
      (['B', 'o', 'd', 'y', ' '] ++ (apxPat ++ ([' ', 't'] ++ (bibPat ++ ['x', '}'])))))
    ['B', 'o', 'd', 'y', ' '] [' ', 't'] ['x', '}'] 0
    (by decide) (by decide) (by decide) (by decide)
  rw [h.2]
  decide

/-- C7: `expand_inputs` (1) returns its input unchanged when the text
contains no inclusion directive; (2) returns its input unchanged beyond
the depth cap of 10; (3) on the self-referential file `a`, which includes
itself, expansion terminates and leaves the directive verbatim. -/
theorem C7_expand_inputs_flat_and_capped :
    (∀ (fs : FileSys) (content : List Char) (d : Nat), noDirective content = true →
      expand_inputs fs d content = content) ∧
    (∀ (fs : FileSys) (content : List Char) (d : Nat), d > 10 →
      expand_inputs fs d content = content) ∧
    expand_inputs [(['a'], inputPat ++ ['a', '}'])] 0 (inputPat ++ ['a', '}'])
      = inputPat ++ ['a', '}'] := by
  refine ⟨?_, ?_, by decide⟩
  · intro fs content d h
    exact expandB_id fs _ content h
  · intro fs content d hd
    unfold expand_inputs
    have h0 : 11 - d = 0 := by omega
    rw [h0]
    rfl

/-- C7 witness: the theorem applied to a directive-free text and to a
text at depth 11. -/
theorem C7_witness :
    expand_inputs [] 0 ['h', 'e', 'l', 'l', 'o'] = ['h', 'e', 'l', 'l', 'o'] ∧
    expand_inputs [(['a'], ['x'])] 11 (inputPat ++ ['a', '}']) = inputPat ++ ['a', '}'] :=
  ⟨C7_expand_inputs_flat_and_capped.1 [] ['h', 'e', 'l', 'l', 'o'] 0 (by decide),
    C7_expand_inputs_flat_and_capped.2.1 [(['a'], ['x'])] (inputPat ++ ['a', '}']) 11
      (by omega)⟩

/-- C1 counterexample: a flattened text without `\begin{document}` is
classified by the orchestrator as `empty_body`, which is a different
outcome from `no_main_tex` — refuting "classified identically to
`no_main_tex`, not as `empty_body`". -/
theorem C1_counterexample :
    classify_build (build_body_text (fun l => l) [] (some ['x'])) = Outcome.empty_body ∧
    Outcome.empty_body ≠ Outcome.no_main_tex := ⟨by decide, by decide⟩

/-- C1 (amended): for a flattened text lacking the document-begin marker,
`extract_body` returns the empty string; `download_paper` classifies this
result as `empty_body` — the same outcome as a genuinely empty body —
while `no_main_tex` arises only when no main file was found. -/
theorem C1_missing_marker_yields_empty_body :
    (∀ content : List Char, containsSub bdocPat content = false →
      extract_body content = []) ∧
    (∀ (raw : List Char) (fmt : List Char → List Char) (fs : FileSys),
      containsSub bdocPat (expand_inputs fs 0 (strip_comments raw)) = false →
      classify_build (build_body_text fmt fs (some raw)) = Outcome.empty_body) ∧
    classify_build none = Outcome.no_main_tex := by
  have hbody : ∀ content : List Char, containsSub bdocPat content = false →
      extract_body content = [] := by
    intro content h
    have hf : findSub bdocPat content = none := (findSub_none_iff _ _).mpr h
    simp only [extract_body, hf]
  refine ⟨hbody, ?_, rfl⟩
  intro raw fmt fs h
  have hx := hbody _ h
  simp only [build_body_text, hx]
  rfl

/-- C1 witness: the amended theorem applied to the one-character text
`x`, which contains no document-begin marker. -/
theorem C1_witness :
    extract_body ['x'] = [] ∧
    classify_build (build_body_text (fun l => l ++ l) [] (some ['x']))
      = Outcome.empty_body :=
  ⟨C1_missing_marker_yields_empty_body.1 ['x'] (by decide),
    C1_missing_marker_yields_empty_body.2.1 ['x'] (fun l => l ++ l) [] (by decide)⟩

/-- C3 counterexample: with a pre-existing artifact for identifier 0 and
identifier 0 in the roster, a run of `main` deletes the old artifact,
reports `success` (not `skipped`) and writes new content — the
pre-existing artifact is not preserved byte-for-byte. -/
theorem C3_counterexample :
    run_main (fun _ => PipeResult.body ['n']) [(0, ['o'])] [0]
      = ([Outcome.success], [(0, ['n'])]) ∧
    Outcome.success ≠ Outcome.skipped ∧
    lookupStore [(0, ['n'])] 0 ≠ some ['o'] := ⟨by decide, by decide, by decide⟩

/-- C3 (amended): `download_paper` itself skips an identifier whose
artifact exists and leaves the store untouched; but `main` clears every
pre-existing `.txt` artifact before the loop, so a full run behaves as if
the store had started empty — pre-existing artifacts are deleted, and
`skipped` can only arise from artifacts created earlier in the same
run. -/
theorem C3_skip_is_per_call_only :
    (∀ (pipe : Nat → PipeResult) (store : Store) (pid : Nat),
      (lookupStore store pid).isSome = true →
      download_paper_fs pipe store pid = (Outcome.skipped, store)) ∧
    (∀ (pipe : Nat → PipeResult) (store0 : Store) (roster : List Nat),
      run_main pipe store0 roster = runLoop pipe [] roster) := by
  constructor
  · intro pipe store pid h
    simp only [download_paper_fs, h]
    rfl
  · intro pipe store0 roster
    rfl

/-- C3 witness: the amended theorem applied to a store that already
holds an artifact for identifier 5. -/
theorem C3_witness :
    download_paper_fs (fun _ => PipeResult.no_source) [(5, ['z'])] 5
      = (Outcome.skipped, [(5, ['z'])]) :=
  C3_skip_is_per_call_only.1 (fun _ => PipeResult.no_source) [(5, ['z'])] 5 (by decide)

/-- C4 counterexample: an exception raised by the artifact write step
escapes `download_paper` (its `try` has only `finally`, no `except`) and
an exception from `download_paper` escapes the run loop. -/
theorem C4_counterexample :
    download_paper_exc false (Except.ok FetchStatus.ok) (Except.ok (some ['x']))
      (Except.error PyExc.osError) = Except.error PyExc.osError ∧
    run_loop_exc (fun _ => Except.error PyExc.osError) [0]
      = Except.error PyExc.osError := ⟨rfl, rfl⟩

/-- C4 (amended): failures signalled through the steps' return values are
all converted into terminal outcomes — `download_paper` returns a normal
outcome whenever every step returns normally — but `download_paper`
catches no exception: an exception raised by fetch/extract or by the
artifact write propagates unchanged, and the run loop propagates it
further instead of continuing with the next paper. -/
theorem C4_exception_policy :
    (∀ (ex : Bool) (st : FetchStatus) (b : Option (List Char)),
      ∃ o : Outcome, download_paper_exc ex (Except.ok st) (Except.ok b)
        (Except.ok ()) = Except.ok o) ∧
    (∀ (e : PyExc) (bb : Except PyExc (Option (List Char)))
      (wa : Except PyExc Unit),
      download_paper_exc false (Except.error e) bb wa = Except.error e) ∧
    (∀ (e : PyExc) (t : List Char),
      download_paper_exc false (Except.ok FetchStatus.ok)
        (Except.ok (some ('x' :: t))) (Except.error e) = Except.error e) ∧
    (∀ (dp : Nat → Except PyExc Outcome) (pid : Nat) (rest : List Nat) (e : PyExc),
      dp pid = Except.error e → run_loop_exc dp (pid :: rest) = Except.error e) := by
  refine ⟨?_, fun e bb wa => rfl, fun e t => rfl, ?_⟩
  · intro ex st b
    cases ex with
    | true => exact ⟨Outcome.skipped, rfl⟩
    | false =>
      cases st with
      | no_source => exact ⟨Outcome.no_source, rfl⟩
      | extract_failed => exact ⟨Outcome.extract_failed, rfl⟩
      | ok =>
        cases b with
        | none => exact ⟨Outcome.no_main_tex, rfl⟩
        | some t =>
          cases t with
          | nil => exact ⟨Outcome.empty_body, rfl⟩
          | cons c cs => exact ⟨Outcome.success, rfl⟩
  · intro dp pid rest e h
    simp only [run_loop_exc, h]

/-- C4 witness: the amended theorem's loop-propagation clause applied to
a pipeline that raises a timeout on paper 3. -/
theorem C4_witness :
    run_loop_exc (fun _ => Except.error PyExc.timeoutExpired) [3, 4]
      = Except.error PyExc.timeoutExpired :=
  C4_exception_policy.2.2.2 (fun _ => Except.error PyExc.timeoutExpired) 3 [4]
    PyExc.timeoutExpired rfl

/-- C8 counterexample: the heading regex is compiled without
`re.IGNORECASE` — `\section{INTRODUCTION}` is not located (empty result)
while the same document with `\section{Introduction}` yields the section
text, refuting "matches "introduction" case-insensitively". -/
theorem C8_counterexample :
    extract_introduction (secIntroUpper ++
      ['\n', 'A', 'l', 'p', 'h', 'a', ' ', 'b', 'e', 't', 'a', '.', '\n'] ++
      secPat ++ ['{', 'N', 'e', 'x', 't', '}']) = [] ∧
    extract_introduction (secIntroTitle ++
      ['\n', 'A', 'l', 'p', 'h', 'a', ' ', 'b', 'e', 't', 'a', '.', '\n'] ++
      secPat ++ ['{', 'N', 'e', 'x', 't', '}'])
      = ['A', 'l', 'p', 'h', 'a', ' ', 'b', 'e', 't', 'a', '.'] :=
  ⟨by decide, by decide⟩

/-- C8 (amended): `extract_introduction` locates the earliest heading
`\section` or `\section*` whose braced title is an optional numeral (with
optional period and spaces) followed by `introduction` or `Introduction`
— only the first letter of the title word may vary in case, not the whole
word; the text runs from just after the heading to the earliest of
`\section`, `\bibliography`, `\appendix`, `\end{document}` (or
end-of-text), is normalized by `clean_latex`, and is hard-truncated to at
most 2000 characters with no ellipsis. -/
theorem C8_intro_first_letter_case_and_cap :
    (∀ content : List Char, (extract_introduction content).length ≤ 2000) ∧
    (∀ (content : List Char) (pos len : Nat),
      findIntroMatch content = some (pos, len) →
      (∀ k, k < pos → introMatchLen (content.drop k) = none) ∧
      introMatchLen (content.drop pos) = some len ∧
      extract_introduction content =
        (clean_latex ((content.drop (pos + len)).take
          (introSliceEnd (content.drop (pos + len))))).take 2000) ∧
    (∀ (tail : List Char) (j : Nat), findEndB tail = some j →
      endBAt (tail.drop j) = true ∧ ∀ k, k < j → endBAt (tail.drop k) = false) ∧
    (∀ r : List Char, introMatchLen (secIntroTitle ++ r) = some 22) ∧
    (∀ r : List Char, introMatchLen (secIntroLower ++ r) = some 22) ∧
    (∀ r : List Char, introMatchLen (secIntroUpper ++ r) = none) := by
  refine ⟨?_, ?_, findEndB_min, fun r => rfl, fun r => rfl, fun r => rfl⟩
  · intro content
    cases h : findIntroMatch content with
    | none => simp [extract_introduction, h]
    | some p =>
      obtain ⟨pos, len⟩ := p
      simp only [extract_introduction, h]
      rw [List.length_take]
      omega
  · intro content pos len h
    obtain ⟨h1, h2⟩ := findIntroMatch_min content pos len h
    refine ⟨h1, h2, ?_⟩
    simp only [extract_introduction, h]

/-- C8 witness: the amended theorem applied to a concrete document with a
plain `\section{Introduction}` heading at position 0. -/
theorem C8_witness :
    introMatchLen ((secIntroTitle ++ ['x', 'y']).drop 0) = some 22 :=
  ((C8_intro_first_letter_case_and_cap.2.1 (secIntroTitle ++ ['x', 'y']) 0 22
    (by decide)).2).1

/-- C9 counterexample: in `\author{X, Alice}` the segment `X` normalizes
to the non-empty string `X` not starting with `(`, yet it is dropped by
the extractor's additional `len(cleaned) > 1` filter — refuting "drops
exactly the empty results and the results beginning with an opening
parenthesis". -/
theorem C9_counterexample :
    extract_authors (authorCmd ++ ['{', 'X', ',', ' ', 'A', 'l', 'i', 'c', 'e', '}'])
      = [['A', 'l', 'i', 'c', 'e']] ∧
    ['X'] ∈ (authorSubsOf (authorCmd ++
      ['{', 'X', ',', ' ', 'A', 'l', 'i', 'c', 'e', '}'])).map cleanSeg ∧
    (['X'] : List Char) ≠ [] ∧
    headOr ['X'] ' ' ≠ '(' ∧
    ['X'] ∉ extract_authors (authorCmd ++
      ['{', 'X', ',', ' ', 'A', 'l', 'i', 'c', 'e', '}']) :=
  ⟨by decide, by decide, by decide, by decide, by decide⟩

/-- C9 (amended): `extract_authors` equals the ordered list of normalized
author segments filtered by the keep-condition "non-empty AND longer than
one character AND not starting with `(`": it is a sublist of the
normalized segments (source order preserved, no deduplication, no
reordering), every kept entry satisfies the condition, and every segment
satisfying the condition is kept. -/
theorem C9_authors_filter_characterization :
    (∀ content : List Char,
      extract_authors content
        = ((authorSubsOf content).map cleanSeg).filter keepAuthor) ∧
    (∀ content : List Char,
      List.Sublist (extract_authors content) ((authorSubsOf content).map cleanSeg)) ∧
    (∀ (content : List Char) (x : List Char), x ∈ extract_authors content →
      x ≠ [] ∧ 1 < x.length ∧ headOr x ' ' ≠ '(') ∧
    (∀ (content : List Char) (sub : List Char), sub ∈ authorSubsOf content →
      keepAuthor (cleanSeg sub) = true → cleanSeg sub ∈ extract_authors content) := by
  refine ⟨extract_authors_eq_filter, ?_, ?_, ?_⟩
  · intro content
    rw [extract_authors_eq_filter]
    exact List.filter_sublist _
  · intro content x hx
    rw [extract_authors_eq_filter] at hx
    exact (keepAuthor_iff x).mp (List.of_mem_filter hx)
  · intro content sub hsub hkeep
    rw [extract_authors_eq_filter]
    exact List.mem_filter.mpr ⟨List.mem_map_of_mem cleanSeg hsub, hkeep⟩

/-- C9 witness: the amended theorem applied to `\author{Alice}`, whose
single segment is kept. -/
theorem C9_witness :
    (['A', 'l', 'i', 'c', 'e'] : List Char) ≠ [] ∧
    1 < (['A', 'l', 'i', 'c', 'e'] : List Char).length ∧
    headOr ['A', 'l', 'i', 'c', 'e'] ' ' ≠ '(' :=
  C9_authors_filter_characterization.2.2.1
    (authorCmd ++ ['{', 'A', 'l', 'i', 'c', 'e', '}'])
    ['A', 'l', 'i', 'c', 'e'] (by decide)

end ArxivDigest
